import Mathlib

/-!
Verification of the J74 Progressive mapping generator.

The development shallowly embeds the generator's core: the degree-token
grammar and its recursive-descent mini-DSL evaluator, the Markov-chain
sequence generator (row normalization, seeded walk, inline transition
text), the mode table with its in-mode test, and the slot-identifier
arithmetic.  Python dictionaries become association lists kept in insertion
order (`dictGet`, `dictSet`), machine floats become exact rationals, and
fallible code returns `Option`.  The external pseudo-random generator is
modelled by an explicit deterministic state (`rngStep`, `seedState`): only
its determinism and the fact that it is one shared global state matter for
the properties proved here, never its distribution.
-/

/-! ## Character and list utilities (Python string primitives) -/

/-- Python `str.strip()`: drop whitespace from both ends. -/
def trimChars (l : List Char) : List Char :=
  ((l.dropWhile Char.isWhitespace).reverse.dropWhile Char.isWhitespace).reverse

/-- Python `s.split(sep)` for a one-character separator: every occurrence
splits, empty pieces are kept. -/
def splitChar (sep : Char) : List Char → List (List Char)
  | [] => [[]]
  | c :: rest =>
    if c = sep then [] :: splitChar sep rest
    else
      match splitChar sep rest with
      | [] => [[c]]
      | h :: t => (c :: h) :: t

/-- Python `s.split(sep, 1)` combined with the `sep in s` membership test:
`none` when the separator never occurs. -/
def splitFirstChar (sep : Char) : List Char → Option (List Char × List Char)
  | [] => none
  | c :: rest =>
    if c = sep then some ([], rest)
    else (splitFirstChar sep rest).map fun p => (c :: p.1, p.2)

/-- Numeric value of a digit list (most significant first). -/
def digitsVal (l : List Char) : Nat :=
  l.foldl (fun a c => a * 10 + (c.toNat - 48)) 0

/-- Digit run of a Python integer literal: nonempty digits, with single
underscores allowed between digits (as `int()` accepts). -/
def pyIntDigits (l : List Char) : Option Nat :=
  if l.isEmpty then none
  else if l.all (fun c => c.isDigit || c = '_')
        && !(l.head? == some '_')
        && !(l.getLast? == some '_')
        && !((l.zip l.tail).any fun p => p.1 = '_' && p.2 = '_') then
    some (digitsVal (l.filter Char.isDigit))
  else none

/-- Model of Python `int(str)` as the parser applies it to a token:
surrounding whitespace stripped, optional sign, then digits. -/
def pyInt (s : String) : Option Int :=
  match trimChars s.toList with
  | '+' :: rest => (pyIntDigits rest).map Int.ofNat
  | '-' :: rest => (pyIntDigits rest).map fun n => -(n : Int)
  | l => (pyIntDigits l).map Int.ofNat

/-- Body of a decimal literal: digits, optionally a point and more digits,
at least one digit overall. -/
def pyFloatBody (l : List Char) : Option ℚ :=
  let ip := l.takeWhile Char.isDigit
  let rest := l.dropWhile Char.isDigit
  match rest with
  | [] => if ip.isEmpty then none else some ((digitsVal ip : ℚ))
  | '.' :: fp =>
    if fp.all Char.isDigit then
      if ip.isEmpty && fp.isEmpty then none
      else some ((digitsVal ip : ℚ) + (digitsVal fp : ℚ) / (10 : ℚ) ^ fp.length)
    else none
  | _ => none

/-- Model of the external `float(str)` on the plain decimal literals the
inline Markov grammar carries: surrounding whitespace, optional sign,
digits with an optional fractional part.  (Exponents and the other exotic
float spellings are out of scope; every input exercised here is plain.) -/
def pyFloat (s : List Char) : Option ℚ :=
  match trimChars s with
  | '+' :: rest => pyFloatBody rest
  | '-' :: rest => (pyFloatBody rest).map Neg.neg
  | l => pyFloatBody l

/-! ## Ordered dictionaries (Python `dict` with string keys) -/

/-- Python `d.get(k)` / `k in d`: first entry with the key. -/
def dictGet {α : Type} : List (String × α) → String → Option α
  | [], _ => none
  | p :: rest, k => if p.1 == k then some p.2 else dictGet rest k

/-- Python `d[k] = v`: replace the value in place at an existing key
(keeping its position), otherwise append a new entry. -/
def dictSet {α : Type} : List (String × α) → String → α → List (String × α)
  | [], k, v => [(k, v)]
  | p :: rest, k, v => if p.1 == k then (k, v) :: rest else p :: dictSet rest k v

/-! ## Modes and the degree grammar (source: MODE_TABLE, ROMAN_RE,
`_strip_accidentals`, `_roman_to_row`, `_is_in_mode`) -/

def IONIAN : List String := ["I", "ii", "iii", "IV", "V", "vi", "vii°"]
def DORIAN : List String := ["i", "ii", "III", "IV", "v", "vi°", "VII"]
def PHRYGIAN : List String := ["i", "II", "III", "iv", "v°", "VI", "vii"]
def LYDIAN : List String := ["I", "II", "iii", "iv°", "V", "vi", "vii"]
def MIXOLYDIAN : List String := ["I", "ii", "iii°", "IV", "v", "vi", "VII"]
def AEOLIAN : List String := ["i", "ii°", "III", "iv", "v", "VI", "VII"]
def LOCRIAN : List String := ["i°", "II", "III", "iv", "V", "VI", "vii"]

def MODE_TABLE : List (String × List String) :=
  [("ionian", IONIAN), ("dorian", DORIAN), ("phrygian", PHRYGIAN),
   ("lydian", LYDIAN), ("mixolydian", MIXOLYDIAN), ("aeolian", AEOLIAN),
   ("locrian", LOCRIAN)]

def isAccidentalChar (c : Char) : Bool := c = 'b' || c = '#'

def isRomanChar (c : Char) : Bool := c = 'i' || c = 'v' || c = 'I' || c = 'V'

/-- `re.sub(r"^[b#]+", "", deg)`: strip the leading accidentals. -/
def strip_accidentals (deg : String) : String :=
  String.mk (deg.toList.dropWhile isAccidentalChar)

/-- The compiled pattern `^[b#]*[ivIV]+(?:°)?$` as a matcher on characters:
the three character classes are pairwise disjoint, so the regex engine's
greedy scan is exactly maximal munch. -/
def romanMatchL (l : List Char) : Bool :=
  let rest := l.dropWhile isAccidentalChar
  let core := rest.takeWhile isRomanChar
  let d := rest.dropWhile isRomanChar
  decide (core ≠ [] ∧ (d = [] ∨ d = ['°']))

/-- `ROMAN_RE.match(tok)` as a Bool. -/
def romanMatch (s : String) : Bool := romanMatchL s.toList

/-- `_roman_to_row`: strip accidentals, uppercase, strip trailing `°`,
look the numeral up in the I..VII table; `none` is the raised ValueError. -/
def roman_to_row (deg : String) : Option Nat :=
  let core := strip_accidentals deg
  let up := String.mk (((core.toList.map Char.toUpper).reverse.dropWhile
    (fun c => c = '°')).reverse)
  dictGet [("I", 1), ("II", 2), ("III", 3), ("IV", 4), ("V", 5), ("VI", 6),
    ("VII", 7)] up

/-- `_is_in_mode`: strip accidentals from the degree and from every entry of
the selected mode, then test membership.  `none` is the KeyError on an
unknown mode name. -/
def is_in_mode (deg mode_name : String) : Option Bool :=
  (dictGet MODE_TABLE mode_name).map fun ms =>
    (ms.map strip_accidentals).contains (strip_accidentals deg)

/-! ## Tokenizer (source: TOK, `_tokenize`) -/

/-- The structural characters of `TOK = re.compile(r"\s*([(),*-])\s*")`. -/
def isStructural (c : Char) : Bool :=
  c = '(' || c = ')' || c = ',' || c = '*' || c = '-'

/-- The final rewrite `"," if t == "-" else t` applied to a structural
token (a buffered token can never be `-`, which is structural). -/
def tokFor (c : Char) : String := if c = '-' then "," else String.mk [c]

/-- Emit the buffered characters as one token if anything is left after
stripping (`if buf.strip()`). -/
def flushBuf (buf : List Char) : List String :=
  let t := trimChars buf
  if t.isEmpty then [] else [String.mk t]

/-- `_tokenize`'s scan: a structural character flushes the buffer and
becomes its own token; every other character (whitespace included, unless
adjacent to a structural token, where stripping removes it) is buffered. -/
def tokenizeAux : List Char → List Char → List String
  | [], buf => flushBuf buf
  | c :: rest, buf =>
    if isStructural c then flushBuf buf ++ tokFor c :: tokenizeAux rest []
    else tokenizeAux rest (buf ++ [c])

def tokenize (s : String) : List String := tokenizeAux s.toList []

/-! ## Recursive-descent mini-DSL evaluator (source: class Parser)

The mutable cursor `self.i` becomes an explicit index threaded through
`Option`-returning functions; `none` is a raised ValueError.  A fuel
argument makes the mutual recursion structural; every recursive call in
the source consumes at least one token, so the generous fuel supplied by
`parse_progression` is never the reason a parse returns `none` there. -/

abbrev Toks := List String

/-- `self.peek()`. -/
def peek (toks : Toks) (i : Nat) : Option String := toks.get? i

/-- Dispatch tag for the five member functions of the recursive-descent
evaluator: encoding the mutual recursion as one function structurally
recursive on the fuel keeps every parse computable by kernel reduction. -/
inductive PKind
  | expr
  | exprRest
  | col
  | colRest
  | item
  | atom

/-- The five parse functions of the source's Parser class, dispatched on
`PKind` (see the wrappers below for the correspondence). -/
def parseF : Nat → PKind → Toks → Nat → Option (List String × Nat)
  | 0, _, _, _ => none
  | f + 1, k, toks, i =>
    match k with
    | PKind.expr =>
      match parseF f PKind.col toks i with
      | none => none
      | some (cols, j) =>
        match parseF f PKind.exprRest toks j with
        | none => none
        | some (more, k1) => some (cols ++ more, k1)
    | PKind.exprRest =>
      if peek toks i = some "," then
        match parseF f PKind.col toks (i + 1) with
        | none => none
        | some (xs, j1) =>
          match parseF f PKind.exprRest toks j1 with
          | none => none
          | some (more, k1) => some (xs ++ more, k1)
      else some ([], i)
    | PKind.col =>
      match parseF f PKind.item toks i with
      | none => none
      | some (items, j) =>
        match parseF f PKind.colRest toks j with
        | none => none
        | some (more, k1) => some (items ++ more, k1)
    | PKind.colRest =>
      match peek toks i with
      | none => some ([], i)
      | some t =>
        if t = "," ∨ t = ")" then some ([], i)
        else
          match parseF f PKind.item toks i with
          | none => none
          | some (items, j1) =>
            match parseF f PKind.colRest toks j1 with
            | none => none
            | some (more, k1) => some (items ++ more, k1)
    | PKind.item =>
      match parseF f PKind.atom toks i with
      | none => none
      | some (atom, j) =>
        if peek toks j = some "*" then
          match toks.get? (j + 1) with
          | none => none
          | some nTok =>
            match pyInt nTok with
            | none => none
            | some n => some (List.flatten (List.replicate n.toNat atom), j + 2)
        else some (atom, j)
    | PKind.atom =>
      if peek toks i = some "(" then
        match parseF f PKind.expr toks (i + 1) with
        | none => none
        | some (inside, j) =>
          if peek toks j = some ")" then some (inside, j + 1) else none
      else
        match toks.get? i with
        | none => none
        | some t => if romanMatch t then some ([t], i + 1) else none

/-- `parse_expr`: a column, then zero or more comma-column pairs, all
concatenated flat. -/
def parseExpr (f : Nat) (toks : Toks) (i : Nat) :
    Option (List String × Nat) := parseF f PKind.expr toks i

/-- The `while self.peek() == ","` loop of `parse_expr`. -/
def parseExprRest (f : Nat) (toks : Toks) (i : Nat) :
    Option (List String × Nat) := parseF f PKind.exprRest toks i

/-- `parse_column`: one item, then items while the lookahead is none of
end-of-input, comma, close-paren. -/
def parseColumn (f : Nat) (toks : Toks) (i : Nat) :
    Option (List String × Nat) := parseF f PKind.col toks i

/-- The `while self.peek() not in (None, ",", ")")` loop of
`parse_column`. -/
def parseColumnRest (f : Nat) (toks : Toks) (i : Nat) :
    Option (List String × Nat) := parseF f PKind.colRest toks i

/-- `parse_item`: an atom or group, then an optional `* INTEGER` suffix
that replicates it in place (`atom * n`, Python list repetition). -/
def parseItem (f : Nat) (toks : Toks) (i : Nat) :
    Option (List String × Nat) := parseF f PKind.item toks i

/-- `parse_atom_or_group`: a parenthesized expression or a single token
that must match the degree pattern. -/
def parseAtomOrGroup (f : Nat) (toks : Toks) (i : Nat) :
    Option (List String × Nat) := parseF f PKind.atom toks i

/-- Unfolding equation for `parseExpr` at positive fuel. -/
lemma parseExpr_succ (f : Nat) (toks : Toks) (i : Nat) :
    parseExpr (f + 1) toks i
      = match parseColumn f toks i with
        | none => none
        | some (cols, j) =>
          match parseExprRest f toks j with
          | none => none
          | some (more, k1) => some (cols ++ more, k1) := rfl

/-- Unfolding equation for `parseExprRest` at positive fuel. -/
lemma parseExprRest_succ (f : Nat) (toks : Toks) (i : Nat) :
    parseExprRest (f + 1) toks i
      = if peek toks i = some "," then
          match parseColumn f toks (i + 1) with
          | none => none
          | some (xs, j1) =>
            match parseExprRest f toks j1 with
            | none => none
            | some (more, k1) => some (xs ++ more, k1)
        else some ([], i) := rfl

/-- Unfolding equation for `parseColumn` at positive fuel. -/
lemma parseColumn_succ (f : Nat) (toks : Toks) (i : Nat) :
    parseColumn (f + 1) toks i
      = match parseItem f toks i with
        | none => none
        | some (items, j) =>
          match parseColumnRest f toks j with
          | none => none
          | some (more, k1) => some (items ++ more, k1) := rfl

/-- Unfolding equation for `parseItem` at positive fuel. -/
lemma parseItem_succ (f : Nat) (toks : Toks) (i : Nat) :
    parseItem (f + 1) toks i
      = match parseAtomOrGroup f toks i with
        | none => none
        | some (atom, j) =>
          if peek toks j = some "*" then
            match toks.get? (j + 1) with
            | none => none
            | some nTok =>
              match pyInt nTok with
              | none => none
              | some n =>
                some (List.flatten (List.replicate n.toNat atom), j + 2)
          else some (atom, j) := rfl

/-- Unfolding equation for `parseAtomOrGroup` at positive fuel. -/
lemma parseAtomOrGroup_succ (f : Nat) (toks : Toks) (i : Nat) :
    parseAtomOrGroup (f + 1) toks i
      = if peek toks i = some "(" then
          match parseExpr f toks (i + 1) with
          | none => none
          | some (inside, j) =>
            if peek toks j = some ")" then some (inside, j + 1) else none
        else
          match toks.get? i with
          | none => none
          | some t => if romanMatch t then some ([t], i + 1) else none := rfl

/-- `parse_progression`: run `parse_expr` on the token list from position 0
and return its value; tokens left unconsumed are ignored, exactly as the
source ignores them. -/
def parse_progression (spec : String) : Option (List String) :=
  let toks := tokenize spec
  (parseExpr (8 * (toks.length + 1)) toks 0).map Prod.fst

/-! ## Markov engine (source: `normalize_row`, `markov_generate`) -/

abbrev Row := List (String × ℚ)
abbrev Graph := List (String × Row)

/-- `normalize_row`: divide by the row sum, rejecting a non-positive sum. -/
def normalize_row (row : Row) : Option Row :=
  let s := (row.map Prod.snd).sum
  if s ≤ 0 then none else some (row.map fun p => (p.1, p.2 / s))

/-- The comprehension `{state: normalize_row(nexts) for state, nexts in
trans.items()}`; any raised error aborts the whole call. -/
def normalizeAll : Graph → Option Graph
  | [] => some []
  | p :: rest =>
    match normalize_row p.2, normalizeAll rest with
    | some r, some acc => some ((p.1, r) :: acc)
    | _, _ => none

/-- One step of the modelled global pseudo-random generator (a linear
congruential stand-in for the external Mersenne Twister: the claims here
depend only on determinism and on the state being shared). -/
def rngStep (s : Nat) : Nat := (1103515245 * s + 12345) % 2 ^ 31

/-- `random.seed(seed)`: the global state after seeding is a function of
the seed alone. -/
def seedState (n : Int) : Nat := n.natAbs % 2 ^ 31

/-- `random.choices(list(nexts.keys()), list(nexts.values()), k=1)[0]`:
weighted selection by a uniform draw `u`, the bisect on cumulative
weights; the final element absorbs the remainder (`hi = len - 1`), and
an empty population raises. -/
def choicePick : Row → ℚ → Option String
  | [], _ => none
  | [(t, _)], _ => some t
  | (t, w) :: p :: rest, u =>
    if u < w then some t else choicePick (p :: rest) (u - w)

/-- The row the loop samples from: the current state's row if present and
non-empty (`if not nexts`), otherwise the first key's row (`cur =
states[0]; nexts = probs[cur]`) — `none` only when the graph is empty. -/
def rowOf (probs : Graph) (states : List String) (cur : String) : Option Row :=
  match dictGet probs cur with
  | some r =>
    if r.isEmpty then
      match states.head? with
      | none => none
      | some s0 => dictGet probs s0
    else some r
  | none =>
    match states.head? with
    | none => none
    | some s0 => dictGet probs s0

/-- The `for _ in range(length - 1)` loop: one uniform draw per step, the
sampled state appended and made current; returns the generated tail and
the global generator state after the loop. -/
def walkSteps (probs : Graph) (states : List String) :
    Nat → String → Nat → Option (List String × Nat)
  | 0, _, g => some ([], g)
  | n + 1, cur, g =>
    match rowOf probs states cur with
    | none => none
    | some r =>
      let g1 := rngStep g
      match choicePick r ((g1 : ℚ) / (2 : ℚ) ^ 31) with
      | none => none
      | some nxt =>
        match walkSteps probs states n nxt g1 with
        | none => none
        | some (tl, gEnd) => some (nxt :: tl, gEnd)

/-- `markov_generate(trans, length, start, seed)`: the ambient global
generator state is the extra argument `g0` and the extra result; with an
explicit seed the call begins by resetting it (`random.seed(seed)`).
`none` is any raised error (a non-positive row sum, or `states[0]` on an
empty graph). -/
def markov_generate (trans : Graph) (length : Int) (start : Option String)
    (seed : Option Int) (g0 : Nat) : Option (List String × Nat) :=
  let gInit := match seed with
    | some s => seedState s
    | none => g0
  match normalizeAll trans with
  | none => none
  | some probs =>
    let states := probs.map Prod.fst
    let start1 := match start with
      | none => states.head?
      | some st => some st
    match start1 with
    | none => none
    | some st =>
      match walkSteps probs states (length - 1).toNat st gInit with
      | none => none
      | some (tl, gEnd) => some (st :: tl, gEnd)

/-! ## Inline Markov transition text (source: `parse_markov_inline`) -/

/-- One `NEXT=PROB` pair: split at the first `=` (raising when absent),
strip the next-state and validate it against the degree pattern, convert
the probability with `float`. -/
def parsePair (p : List Char) : Option (String × ℚ) :=
  match splitFirstChar '=' p with
  | none => none
  | some (ns, pr) =>
    let nxt := String.mk (trimChars ns)
    if romanMatch nxt then (pyFloat pr).map fun q => (nxt, q) else none

/-- The inner loop over `[p.strip() for p in rhs.split(",") if p.strip()]`,
building the row dict by assignment. -/
def parsePairsAux : List (List Char) → Row → Option Row
  | [], acc => some acc
  | p :: rest, acc =>
    match parsePair p with
    | none => none
    | some e => parsePairsAux rest (dictSet acc e.1 e.2)

def parsePairs (rhs : List Char) : Option Row :=
  parsePairsAux (((splitChar ',' rhs).map trimChars).filter
    (fun p => !p.isEmpty)) []

/-- One `STATE:pairs` clause: split at the first `:` (raising when
absent), strip and validate the state, parse the pairs. -/
def parseClause (clause : List Char) : Option (String × Row) :=
  match splitFirstChar ':' clause with
  | none => none
  | some (sp, rhs) =>
    let state := String.mk (trimChars sp)
    if romanMatch state then (parsePairs rhs).map fun r => (state, r)
    else none

/-- `[c.strip() for c in spec.split(";") if c.strip()]`. -/
def clausesOf (spec : String) : List (List Char) :=
  ((splitChar ';' spec.toList).map trimChars).filter (fun c => !c.isEmpty)

/-- The clause loop of `parse_markov_inline`: each clause's row is
assigned into the graph dict (`graph[state] = nxt`); any error aborts. -/
def parseMarkovAux : List (List Char) → Graph → Option Graph
  | [], g => some g
  | c :: rest, g =>
    match parseClause c with
    | none => none
    | some e => parseMarkovAux rest (dictSet g e.1 e.2)

def parse_markov_inline (spec : String) : Option Graph :=
  parseMarkovAux (clausesOf spec) []

/-- The results of the per-clause parses in text order, before the dict
assignments merge them: the vocabulary in which the duplicate-clause
behaviour of `parse_markov_inline` is stated. -/
def parseClauses : List (List Char) → Option (List (String × Row))
  | [] => some []
  | c :: rest =>
    match parseClause c, parseClauses rest with
    | some e, some es => some (e :: es)
    | _, _ => none

/-! ## Slot identifier (source: `slot_id`) -/

def SECTION_TENS : List (String × Nat) :=
  [("diatonic", 0), ("custom1", 1), ("custom2", 2)]

/-- `slot_id(quality_idx, section, col0, row1)`; `none` is the KeyError on
a section outside the fixed three.  (`section` is a Lean keyword, hence
the binder name `sectionName`.) -/
def slot_id (quality_idx : Nat) (sectionName : String) (col0 : Nat)
    (row1 : Nat) : Option Nat :=
  (dictGet SECTION_TENS sectionName).map fun tens =>
    let ones := col0 + 1
    let hundreds := quality_idx
    hundreds * 100 + tens * 10 + ones * 10 + row1

/-! ## The degree-token shape the spec describes -/

/-- The shape `accidental* core diminished?` with the core an arbitrary
nonempty word over the regex class `[ivIV]` — the shape `ROMAN_RE`
actually accepts. -/
def RomanShape (s : String) : Prop :=
  ∃ a core d : List Char,
    s.toList = a ++ core ++ d ∧
    (∀ c ∈ a, isAccidentalChar c = true) ∧
    core ≠ [] ∧
    (∀ c ∈ core, isRomanChar c = true) ∧
    (d = [] ∨ d = ['°'])

/-! ## List facts used throughout -/

lemma mem_takeWhile_pred {p : Char → Bool} :
    ∀ l : List Char, ∀ c ∈ l.takeWhile p, p c = true := by
  intro l
  induction l with
  | nil => intro c hc; simp [List.takeWhile] at hc
  | cons x xs ih =>
    intro c hc
    cases hx : p x with
    | true =>
      simp only [List.takeWhile, hx, List.mem_cons] at hc
      rcases hc with h | h
      · rw [h]; exact hx
      · exact ih c h
    | false => simp [List.takeWhile, hx] at hc

lemma takeWhile_append_dropWhile_eq {p : Char → Bool} (l : List Char) :
    l.takeWhile p ++ l.dropWhile p = l := by
  induction l with
  | nil => rfl
  | cons x xs ih =>
    cases hx : p x with
    | true => simp [List.takeWhile, List.dropWhile, hx, ih]
    | false => simp [List.takeWhile, List.dropWhile, hx]

lemma dropWhile_append_all {p : Char → Bool} {a : List Char}
    (h : ∀ c ∈ a, p c = true) (t : List Char) :
    List.dropWhile p (a ++ t) = List.dropWhile p t := by
  induction a with
  | nil => rfl
  | cons x xs ih =>
    have hx : p x = true := h x (by simp)
    simp only [List.cons_append, List.dropWhile, hx]
    exact ih fun c hc => h c (by simp [hc])

lemma takeWhile_append_all {p : Char → Bool} {a : List Char}
    (h : ∀ c ∈ a, p c = true) (t : List Char) :
    List.takeWhile p (a ++ t) = a ++ List.takeWhile p t := by
  induction a with
  | nil => rfl
  | cons x xs ih =>
    have hx : p x = true := h x (by simp)
    have ih1 := ih fun c hc => h c (by simp [hc])
    simp only [List.cons_append, List.takeWhile, hx]
    rw [show xs.append t = xs ++ t from rfl, ih1]

lemma dropWhile_cons_neg {p : Char → Bool} {x : Char} (xs : List Char)
    (h : p x = false) : List.dropWhile p (x :: xs) = x :: xs := by
  simp [List.dropWhile, h]

lemma takeWhile_cons_neg {p : Char → Bool} {x : Char} (xs : List Char)
    (h : p x = false) : List.takeWhile p (x :: xs) = [] := by
  simp [List.takeWhile, h]

lemma roman_not_accidental {c : Char} (h : isRomanChar c = true) :
    isAccidentalChar c = false := by
  simp only [isRomanChar, Bool.or_eq_true, decide_eq_true_eq] at h
  rcases h with ((h | h) | h) | h <;> subst h <;> decide

/-! ## Dictionary facts -/

lemma dictGet_some_mem {α : Type} {g : List (String × α)} {k : String}
    {v : α} (h : dictGet g k = some v) : ∃ p ∈ g, p.2 = v := by
  induction g with
  | nil => simp [dictGet] at h
  | cons p rest ih =>
    cases hk : (p.1 == k) with
    | true =>
      simp only [dictGet, hk, if_true, Option.some_inj] at h
      exact ⟨p, by simp, h⟩
    | false =>
      simp only [dictGet, hk, Bool.false_eq_true, if_false] at h
      obtain ⟨q, hq, hv⟩ := ih h
      exact ⟨q, by simp [hq], hv⟩

lemma dictGet_none_iff {α : Type} (g : List (String × α)) (k : String) :
    dictGet g k = none ↔ k ∉ g.map Prod.fst := by
  induction g with
  | nil => simp [dictGet]
  | cons p rest ih =>
    cases hk : (p.1 == k) with
    | true =>
      have : p.1 = k := by simpa using hk
      simp [dictGet, hk, this]
    | false =>
      have hne : p.1 ≠ k := by simpa using hk
      simp [dictGet, hk, ih, hne, Ne.symm hne]

lemma dictGet_head {α : Type} (q : String × α) (rest : List (String × α)) :
    dictGet (q :: rest) q.1 = some q.2 := by
  simp [dictGet]

lemma dictGet_dictSet {α : Type} (g : List (String × α)) (k : String)
    (v : α) (st : String) :
    dictGet (dictSet g k v) st = if st = k then some v else dictGet g st := by
  induction g with
  | nil =>
    by_cases h : st = k
    · simp [dictSet, dictGet, h]
    · have h2 : (k == st) = false := by
        simp only [beq_eq_false_iff_ne, ne_eq]
        exact fun hh => h hh.symm
      simp [dictSet, dictGet, h, h2]
  | cons p rest ih =>
    by_cases hpk : p.1 = k
    · by_cases hst : st = k
      · simp [dictSet, dictGet, hpk, hst]
      · have h1 : (k == st) = false := by
          simp only [beq_eq_false_iff_ne, ne_eq]
          exact fun hh => hst hh.symm
        have h2 : (p.1 == st) = false := by
          simp only [beq_eq_false_iff_ne, ne_eq, hpk]
          exact fun hh => hst hh.symm
        simp [dictSet, dictGet, hpk, h1, h2, hst]
    · have hpk2 : (p.1 == k) = false := by simp [hpk]
      by_cases hpst : p.1 = st
      · have hstk : ¬ st = k := fun hh => hpk (hpst.trans hh)
        simp [dictSet, dictGet, hpk2, hpst, hstk]
      · have hpst2 : (p.1 == st) = false := by simp [hpst]
        simp [dictSet, dictGet, hpk2, hpst2, ih]

/-! ## C1: the slot-identifier formula -/

/-- C1: for every quality in 1..5, every section of the fixed three (with
its ordinal), every column in 0..4 and every row in 1..7, `slot_id` is
exactly `quality*100 + sectionOrdinal*10 + (column+1)*10 + row`; in
particular quality 1, diatonic, column 0, row 1 gives 111, and quality 3,
custom2, column 4, row 7 gives 377. -/
theorem slot_id_formula (q : Nat) (sec : String) (tens col row : Nat)
    (hsec : dictGet SECTION_TENS sec = some tens)
    (hq : 1 ≤ q ∧ q ≤ 5) (hcol : col ≤ 4) (hrow : 1 ≤ row ∧ row ≤ 7) :
    slot_id q sec col row = some (q * 100 + tens * 10 + (col + 1) * 10 + row)
      ∧ slot_id 1 "diatonic" 0 1 = some 111
      ∧ slot_id 3 "custom2" 4 7 = some 377 := by
  refine ⟨?_, by decide, by decide⟩
  simp [slot_id, hsec]

theorem slot_id_formula_witness :
    slot_id 2 "custom1" 3 4 = some (2 * 100 + 1 * 10 + (3 + 1) * 10 + 4)
      ∧ slot_id 1 "diatonic" 0 1 = some 111
      ∧ slot_id 3 "custom2" 4 7 = some 377 :=
  slot_id_formula 2 "custom1" 1 3 4 (by decide) (by decide) (by decide)
    (by decide)

/-! ## C2: the in-mode test and the diminished marker -/

/-- C2 counterexample: the in-mode test does not strip the trailing
diminished marker.  In ionian, the entry `vii°` itself is classified as
in mode, while `vii` — differing from that entry only by the trailing
marker — is not, contradicting the claim that only the marker-stripped
cores are compared. -/
theorem is_in_mode_dim_counterexample :
    ("vii°" ∈ IONIAN)
      ∧ is_in_mode "vii°" "ionian" = some true
      ∧ is_in_mode "vii" "ionian" = some false := by
  refine ⟨by decide, by decide, by decide⟩

/-- C2 (amended): for a mode name bound in the table, the in-mode test
strips only the leading accidentals — never the trailing diminished
marker — from the degree, and answers true exactly when the stripped
degree equals some mode entry stripped likewise only of accidentals. -/
theorem is_in_mode_characterization (deg m : String) (ms : List String)
    (h : dictGet MODE_TABLE m = some ms) :
    is_in_mode deg m = some true
      ↔ ∃ x ∈ ms, strip_accidentals x = strip_accidentals deg := by
  simp only [is_in_mode, h, Option.map_some', Option.some_inj]
  rw [show (List.map strip_accidentals ms).contains (strip_accidentals deg)
      = List.elem (strip_accidentals deg) (List.map strip_accidentals ms)
    from rfl, List.elem_iff]
  simp [List.mem_map]

theorem is_in_mode_characterization_witness :
    is_in_mode "bVII" "mixolydian" = some true
      ↔ ∃ x ∈ MIXOLYDIAN,
          strip_accidentals x = strip_accidentals "bVII" :=
  is_in_mode_characterization "bVII" "mixolydian" MIXOLYDIAN (by decide)

/-! ## C9: what the degree-token pattern actually accepts -/

lemma dictSet_mem {α : Type} {g : List (String × α)} {k : String} {v : α}
    {q : String × α} (h : q ∈ dictSet g k v) : q = (k, v) ∨ q ∈ g := by
  induction g with
  | nil => simpa [dictSet] using h
  | cons p rest ih =>
    by_cases hpk : p.1 = k
    · have hb : (p.1 == k) = true := by simp [hpk]
      simp only [dictSet, hb, if_true, List.mem_cons] at h
      rcases h with h | h
      · exact Or.inl h
      · exact Or.inr (by simp [h])
    · have hb : (p.1 == k) = false := by simp [hpk]
      simp only [dictSet, hb, Bool.false_eq_true, if_false,
        List.mem_cons] at h
      rcases h with h | h
      · exact Or.inr (by simp [h])
      · rcases ih h with h2 | h2
        · exact Or.inl h2
        · exact Or.inr (by simp [h2])

lemma parsePair_roman {p : List Char} {e : String × ℚ}
    (h : parsePair p = some e) : romanMatch e.1 = true := by
  cases hs : splitFirstChar '=' p with
  | none => simp [parsePair, hs] at h
  | some pr =>
    obtain ⟨ns, prr⟩ := pr
    simp only [parsePair, hs] at h
    cases hro : romanMatch (String.mk (trimChars ns)) with
    | false => rw [hro] at h; exact absurd h (by simp)
    | true =>
      rw [hro] at h
      simp only [if_true] at h
      cases hf : pyFloat prr with
      | none => rw [hf] at h; exact absurd h (by simp)
      | some q =>
        rw [hf, Option.map_some'] at h
        have he : e = (String.mk (trimChars ns), q) :=
          (Option.some_inj.mp h).symm
        rw [he]
        exact hro

lemma parsePairsAux_roman : ∀ (ps : List (List Char)) (acc r : Row),
    (∀ p ∈ acc, romanMatch p.1 = true) → parsePairsAux ps acc = some r →
    ∀ p ∈ r, romanMatch p.1 = true := by
  intro ps
  induction ps with
  | nil =>
    intro acc r hacc h
    simp only [parsePairsAux, Option.some_inj] at h
    rw [← h]; exact hacc
  | cons c rest ih =>
    intro acc r hacc h
    simp only [parsePairsAux] at h
    cases hp : parsePair c with
    | none => rw [hp] at h; exact absurd h (by simp)
    | some e =>
      rw [hp] at h
      refine ih _ r ?_ h
      intro q hq
      rcases dictSet_mem hq with h2 | h2
      · rw [h2]; exact parsePair_roman hp
      · exact hacc q h2

/-- C9 counterexample: the pattern class `[ivIV]+` accepts any nonempty
word over those four letters, not only the seven roman numerals: `IIII`
is accepted as a degree token (the DSL parses it), although its letter
core is none of I..VII — the code's own row resolver rejects it. -/
theorem roman_token_counterexample :
    romanMatch "IIII" = true
      ∧ parse_progression "IIII" = some ["IIII"]
      ∧ "IIII" ∉ ["I", "II", "III", "IV", "V", "VI", "VII"]
      ∧ roman_to_row "IIII" = none := by
  refine ⟨by decide, by rfl, by decide, by rfl⟩

/-- C9 (amended): a string is accepted as a degree token exactly when it
is accidentals, then a nonempty word over the letters i, v, I, V (not
necessarily one of the seven numerals), then an optional diminished
marker; the DSL parser accepts a non-parenthesis token exactly under this
test, and every state the inline Markov parser admits (left or right of a
pair) passes it. -/
theorem roman_token_shape :
    (∀ s : String, romanMatch s = true ↔ RomanShape s)
      ∧ (∀ (toks : Toks) (i : Nat) (t : String) (f : Nat),
          toks.get? i = some t → t ≠ "(" →
          parseAtomOrGroup (f + 1) toks i
            = (if romanMatch t then some ([t], i + 1) else none))
      ∧ (∀ (clause : List Char) (st : String) (r : Row),
          parseClause clause = some (st, r) →
          romanMatch st = true ∧ ∀ p ∈ r, romanMatch p.1 = true) := by
  refine ⟨?_, ?_, ?_⟩
  · intro s
    constructor
    · intro h
      simp only [romanMatch, romanMatchL, decide_eq_true_eq] at h
      refine ⟨s.toList.takeWhile isAccidentalChar,
        (s.toList.dropWhile isAccidentalChar).takeWhile isRomanChar,
        (s.toList.dropWhile isAccidentalChar).dropWhile isRomanChar,
        ?_, mem_takeWhile_pred _, h.1, mem_takeWhile_pred _, h.2⟩
      rw [List.append_assoc, takeWhile_append_dropWhile_eq,
        takeWhile_append_dropWhile_eq]
    · rintro ⟨a, core, d, heq, ha, hcne, hcore, hd⟩
      obtain ⟨c0, core2, rfl⟩ : ∃ c0 core2, core = c0 :: core2 := by
        cases core with
        | nil => exact absurd rfl hcne
        | cons c0 core2 => exact ⟨c0, core2, rfl⟩
      have hc0 : isRomanChar c0 = true := hcore c0 (by simp)
      have hdrop : s.toList.dropWhile isAccidentalChar
          = (c0 :: core2) ++ d := by
        rw [heq, List.append_assoc, dropWhile_append_all ha,
          List.cons_append, dropWhile_cons_neg _ (roman_not_accidental hc0),
          ← List.cons_append]
      have htake : ((c0 :: core2) ++ d).takeWhile isRomanChar
          = c0 :: core2 := by
        rw [takeWhile_append_all hcore]
        rcases hd with hd | hd
        · simp [hd]
        · rw [hd, takeWhile_cons_neg _ (by decide)]
          simp
      have hdrop2 : ((c0 :: core2) ++ d).dropWhile isRomanChar = d := by
        rw [dropWhile_append_all hcore]
        rcases hd with hd | hd
        · rw [hd]; rfl
        · rw [hd, dropWhile_cons_neg _ (by decide)]
      simp only [romanMatch, romanMatchL, decide_eq_true_eq, hdrop,
        htake, hdrop2]
      exact ⟨by simp, hd⟩
  · intro toks i t f hget hne
    have hpeek : peek toks i = some t := hget
    have hcond : ¬ peek toks i = some "(" := by
      rw [hpeek]
      simp [hne]
    rw [parseAtomOrGroup_succ, if_neg hcond, hget]
  · intro clause st r h
    cases hs : splitFirstChar ':' clause with
    | none => simp [parseClause, hs] at h
    | some pr =>
      obtain ⟨sp, rhs⟩ := pr
      simp only [parseClause, hs] at h
      cases hro : romanMatch (String.mk (trimChars sp)) with
      | false => rw [hro] at h; exact absurd h (by simp)
      | true =>
        rw [hro] at h
        simp only [if_true] at h
        cases hp : parsePairs rhs with
        | none => rw [hp] at h; exact absurd h (by simp)
        | some r0 =>
          rw [hp, Option.map_some'] at h
          have hpair := Option.some_inj.mp h
          have hst : String.mk (trimChars sp) = st := congrArg Prod.fst hpair
          have hr : r0 = r := congrArg Prod.snd hpair
          constructor
          · rw [← hst]; exact hro
          · rw [← hr]
            exact parsePairsAux_roman _ [] r0 (by simp) hp

/-! ## C6: when the mini-DSL fails -/

/-- Unfolding equation for the tokenizer scan. -/
lemma tokenizeAux_cons (c : Char) (rest buf : List Char) :
    tokenizeAux (c :: rest) buf
      = if isStructural c then
          flushBuf buf ++ tokFor c :: tokenizeAux rest []
        else tokenizeAux rest (buf ++ [c]) := by
  rw [tokenizeAux]

/-- C6 counterexample: unbalanced parentheses do not always fail — a
surplus closing parenthesis merely stops the scan, the parsed prefix is
returned and the rest of the input is ignored. -/
theorem parser_unbalanced_accepted :
    parse_progression "I)" = some ["I"] := by rfl

/-- C6 (amended): parsing fails when a token where a degree is expected
neither opens a group nor matches the degree pattern, when the input ends
where a degree is expected, or when `*` is not followed by an integer
token; in particular a lone open parenthesis fails.  Unbalanced input
does not always fail: a surplus close parenthesis after a complete
expression is silently ignored. -/
theorem parser_error_conditions :
    (parse_progression "(" = none)
      ∧ (∀ (toks : Toks) (i : Nat) (t : String) (f : Nat),
          toks.get? i = some t → t ≠ "(" → romanMatch t = false →
          parseAtomOrGroup (f + 1) toks i = none)
      ∧ (∀ (toks : Toks) (i : Nat) (f : Nat),
          toks.get? i = none → parseAtomOrGroup f toks i = none)
      ∧ (∀ (f : Nat) (toks : Toks) (i : Nat) (atom : List String) (j : Nat),
          parseAtomOrGroup f toks i = some (atom, j) →
          toks.get? j = some "*" →
          (∀ t, toks.get? (j + 1) = some t → pyInt t = none) →
          parseItem (f + 1) toks i = none)
      ∧ (parse_progression "I)" = some ["I"]) := by
  refine ⟨by rfl, ?_, ?_, ?_, by rfl⟩
  · intro toks i t f hget hne hro
    have hpeek : peek toks i = some t := hget
    have hcond : ¬ peek toks i = some "(" := by
      rw [hpeek]
      simp [hne]
    rw [parseAtomOrGroup_succ, if_neg hcond, hget]
    simp [hro]
  · intro toks i f hget
    cases f with
    | zero => rfl
    | succ f1 =>
      have hpeek : peek toks i = none := hget
      have hcond : ¬ peek toks i = some "(" := by
        rw [hpeek]
        simp
      rw [parseAtomOrGroup_succ, if_neg hcond, hget]
  · intro f toks i atom j hatom hstar hint
    have hpk : peek toks j = some "*" := hstar
    simp only [parseItem_succ, hatom, hpk, Option.some_inj, if_true]
    cases hnext : toks.get? (j + 1) with
    | none => simp
    | some t => simp [hint t hnext]

theorem parser_error_conditions_witness : parseAtomOrGroup 3 ["x"] 0 = none :=
  parser_error_conditions.2.1 ["x"] 0 "x" 2 rfl (by decide) (by decide)

/-! ## C7: what a well-formed parse returns -/

/-- The dash-to-comma synonym as a character substitution. -/
def dashToComma (c : Char) : Char := if c = '-' then ',' else c

lemma tokenizeAux_dash (l : List Char) :
    ∀ buf, tokenizeAux (l.map dashToComma) buf = tokenizeAux l buf := by
  induction l with
  | nil => intro buf; rfl
  | cons c rest ih =>
    intro buf
    rw [List.map_cons, tokenizeAux_cons, tokenizeAux_cons]
    by_cases hd : c = '-'
    · subst hd
      rw [show dashToComma '-' = ',' from rfl]
      rw [show isStructural ',' = true from rfl,
        show isStructural '-' = true from rfl]
      simp only [if_true]
      rw [ih []]
      rfl
    · have hmap : dashToComma c = c := if_neg hd
      rw [hmap]
      cases hs : isStructural c with
      | true => simp only [hs, if_true]; rw [ih []]
      | false => simp only [hs, Bool.false_eq_true, if_false]
                 rw [ih (buf ++ [c])]

/-- C7: well-formed parses flatten.  The dash is a synonym for the comma
(replacing every dash by a comma changes no parse), a `*n` suffix
replicates the just-parsed atom or group n times flattened in place, a
comma appends the following columns' items flat — so column boundaries
never survive — and the two specified examples hold. -/
theorem parser_flatten_semantics :
    (parse_progression "I-V-I" = some ["I", "V", "I"])
      ∧ (parse_progression "(I-V)*2" = some ["I", "V", "I", "V"])
      ∧ (∀ s : String,
          parse_progression (String.mk (s.toList.map dashToComma))
            = parse_progression s)
      ∧ (∀ (f : Nat) (toks : Toks) (i : Nat) (atom : List String) (j : Nat)
          (nTok : String) (n : Int),
          parseAtomOrGroup f toks i = some (atom, j) →
          toks.get? j = some "*" → toks.get? (j + 1) = some nTok →
          pyInt nTok = some n →
          parseItem (f + 1) toks i
            = some (List.flatten (List.replicate n.toNat atom), j + 2))
      ∧ (∀ (f : Nat) (toks : Toks) (i : Nat) (cols : List String) (j : Nat)
          (more : List String) (k1 : Nat),
          parseColumn (f + 1) toks i = some (cols, j) →
          peek toks j = some "," →
          parseExpr (f + 1) toks (j + 1) = some (more, k1) →
          parseExpr (f + 2) toks i = some (cols ++ more, k1)) := by
  refine ⟨by rfl, by rfl, ?_, ?_, ?_⟩
  · intro s
    show (parseExpr _ (tokenize (String.mk (s.toList.map dashToComma))) 0).map
        Prod.fst = _
    have ht : tokenize (String.mk (s.toList.map dashToComma))
        = tokenize s := by
      show tokenizeAux (String.mk (s.toList.map dashToComma)).toList []
        = tokenizeAux s.toList []
      rw [show (String.mk (s.toList.map dashToComma)).toList
          = s.toList.map dashToComma from rfl]
      exact tokenizeAux_dash s.toList []
    rw [ht]
    rfl
  · intro f toks i atom j nTok n hatom hstar hnext hint
    have hpk : peek toks j = some "*" := hstar
    simp only [parseItem_succ, hatom, hpk, hnext, hint, if_true]
  · intro f toks i cols j more k1 hcol hcomma hexpr
    have hrest : parseExprRest (f + 1) toks j = some (more, k1) := by
      rw [parseExprRest_succ, if_pos hcomma]
      rw [parseExpr_succ] at hexpr
      cases hc : parseColumn f toks (j + 1) with
      | none =>
        simp only [hc] at hexpr
        exact absurd hexpr (by simp)
      | some xs =>
        obtain ⟨xs1, j1⟩ := xs
        simp only [hc] at hexpr
        cases hr : parseExprRest f toks j1 with
        | none =>
          simp only [hr] at hexpr
          exact absurd hexpr (by simp)
        | some mr =>
          obtain ⟨m2, k2⟩ := mr
          simp only [hr] at hexpr
          simp only [hc, hr]
          exact hexpr
    simp only [parseExpr_succ, hcol, hrest]

/-! ## Markov walk infrastructure -/

lemma normalize_row_ne_nil {row r : Row} (h : normalize_row row = some r) :
    r ≠ [] := by
  simp only [normalize_row] at h
  by_cases hs : (row.map Prod.snd).sum ≤ 0
  · rw [if_pos hs] at h
    exact absurd h (by simp)
  · rw [if_neg hs] at h
    have hr := Option.some_inj.mp h
    cases row with
    | nil => exact absurd (by simp) hs
    | cons p rest =>
      rw [← hr]
      simp

lemma normalizeAll_total : ∀ trans : Graph,
    (∀ p ∈ trans, 0 < (p.2.map Prod.snd).sum) →
    ∃ probs, normalizeAll trans = some probs
      ∧ probs.map Prod.fst = trans.map Prod.fst
      ∧ ∀ q ∈ probs, q.2 ≠ [] := by
  intro trans
  induction trans with
  | nil => intro _; exact ⟨[], rfl, rfl, by simp⟩
  | cons p rest ih =>
    intro h
    have hp : 0 < (p.2.map Prod.snd).sum := h p (by simp)
    have hnr : normalize_row p.2
        = some (p.2.map fun q => (q.1, q.2 / (p.2.map Prod.snd).sum)) := by
      simp only [normalize_row]
      rw [if_neg (not_le.mpr hp)]
    obtain ⟨probs, h1, h2, h3⟩ := ih fun q hq => h q (by simp [hq])
    refine ⟨(p.1, p.2.map fun q => (q.1, q.2 / (p.2.map Prod.snd).sum))
      :: probs, ?_, ?_, ?_⟩
    · simp only [normalizeAll, hnr, h1]
    · simp [h2]
    · intro q hq
      rcases List.mem_cons.mp hq with hq | hq
    
      · have hrow : p.2 ≠ [] := by
          intro hnil
          rw [hnil] at hp
          simp at hp
        rw [hq]
        simpa using hrow
      · exact h3 q hq

lemma choicePick_some : ∀ (r : Row) (u : ℚ), r ≠ [] →
    ∃ t, choicePick r u = some t := by
  intro r
  induction r with
  | nil => intro u h; exact absurd rfl h
  | cons p rest ih =>
    obtain ⟨t, w⟩ := p
    intro u h
    cases rest with
    | nil => exact ⟨t, rfl⟩
    | cons p2 rest2 =>
      by_cases hu : u < w
      · exact ⟨t, by simp [choicePick, hu]⟩
      · obtain ⟨t2, h2⟩ := ih (u - w) (by simp)
        refine ⟨t2, ?_⟩
        simp only [choicePick, if_neg hu]
        exact h2

/-- Unfolding equation for the walk at a positive step count. -/
lemma walkSteps_succ (probs : Graph) (states : List String) (n : Nat)
    (cur : String) (g : Nat) :
    walkSteps probs states (n + 1) cur g
      = match rowOf probs states cur with
        | none => none
        | some r =>
          match choicePick r ((rngStep g : ℚ) / (2 : ℚ) ^ 31) with
          | none => none
          | some nxt =>
            match walkSteps probs states n nxt (rngStep g) with
            | none => none
            | some (tl, gEnd) => some (nxt :: tl, gEnd) := rfl

lemma rowOf_some (probs : Graph) (hne : probs ≠ [])
    (hrows : ∀ p ∈ probs, p.2 ≠ []) (cur : String) :
    ∃ r, rowOf probs (probs.map Prod.fst) cur = some r ∧ r ≠ [] := by
  obtain ⟨q, rest, hq⟩ : ∃ q rest, probs = q :: rest := by
    cases probs with
    | nil => exact absurd rfl hne
    | cons q rest => exact ⟨q, rest, rfl⟩
  have hhead : (probs.map Prod.fst).head? = some q.1 := by rw [hq]; rfl
  have hget0 : dictGet probs q.1 = some q.2 := by
    rw [hq]
    exact dictGet_head q rest
  have hq2 : q.2 ≠ [] := hrows q (by rw [hq]; simp)
  cases hc : dictGet probs cur with
  | some r =>
    have hrne : r ≠ [] := by
      obtain ⟨p, hp, hpv⟩ := dictGet_some_mem hc
      rw [← hpv]
      exact hrows p hp
    have hemp : r.isEmpty = false := by
      cases r with
      | nil => exact absurd rfl hrne
      | cons a b => rfl
    refine ⟨r, ?_, hrne⟩
    simp only [rowOf, hc, hemp, Bool.false_eq_true, if_false]
  | none =>
    refine ⟨q.2, ?_, hq2⟩
    simp only [rowOf, hc, hhead]
    exact hget0

lemma walkSteps_ok (probs : Graph) (hne : probs ≠ [])
    (hrows : ∀ p ∈ probs, p.2 ≠ []) :
    ∀ (n : Nat) (cur : String) (g : Nat),
    ∃ tl gEnd, walkSteps probs (probs.map Prod.fst) n cur g = some (tl, gEnd)
      ∧ tl.length = n := by
  intro n
  induction n with
  | zero => intro cur g; exact ⟨[], g, rfl, rfl⟩
  | succ n ih =>
    intro cur g
    obtain ⟨r, hr, hrne⟩ := rowOf_some probs hne hrows cur
    obtain ⟨nxt, hpick⟩ :=
      choicePick_some r ((rngStep g : ℚ) / (2 : ℚ) ^ 31) hrne
    obtain ⟨tl, gEnd, hw, hlen⟩ := ih nxt (rngStep g)
    refine ⟨nxt :: tl, gEnd, ?_, by simp [hlen]⟩
    rw [walkSteps_succ]
    simp only [hr, hpick, hw]

/-! ## C3: determinism under an explicit seed -/

/-- C3: with an explicit seed, `random.seed` makes the global generator
state a function of the seed, so two invocations of the walk with the
same graph, length, start and seed return the same sequence whatever
ambient generator states `g1`, `g2` the two invocations begin in. -/
theorem markov_seed_deterministic (trans : Graph) (len : Int)
    (start : Option String) (s : Int)
    (hpos : ∀ p ∈ trans, 0 < (p.2.map Prod.snd).sum) :
    ∀ g1 g2 : Nat,
      (markov_generate trans len start (some s) g1).map Prod.fst
        = (markov_generate trans len start (some s) g2).map Prod.fst := by
  intro g1 g2
  rfl

theorem markov_seed_deterministic_witness :
    (markov_generate [("I", [("I", (1 : ℚ))])] 3 none (some 42) 0).map
        Prod.fst
      = (markov_generate [("I", [("I", (1 : ℚ))])] 3 none (some 42) 99).map
          Prod.fst :=
  markov_seed_deterministic [("I", [("I", (1 : ℚ))])] 3 none 42
    (by
      intro p hp
      rw [show p = ("I", [("I", (1 : ℚ))]) from by simpa using hp]
      norm_num) 0 99

/-! ## C4: length and first token -/

/-- C4 counterexample: the loop runs `length - 1` times after seeding the
sequence with the start token, so `length = 0` still yields one token,
not zero; and on the empty graph with no start, `states[0]` fails even
though every row (there are none) has a positive sum. -/
theorem markov_length_counterexample :
    ((markov_generate [("I", [("V", (1 : ℚ))]), ("V", [("I", (1 : ℚ))])]
        0 (some "I") (some 1) 0).map (fun r => r.1.length) = some 1)
      ∧ (markov_generate [] 1 none (some 0) 0 = none) := by
  constructor
  · have hnorm : normalizeAll [("I", [("V", (1 : ℚ))]), ("V", [("I", (1 : ℚ))])]
        = some [("I", [("V", 1)]), ("V", [("I", 1)])] := by
      norm_num [normalizeAll, normalize_row]
    simp only [markov_generate, hnorm]
    rfl
  · rfl

/-- C4 (amended): for a nonempty graph whose rows all have positive
weight sum and a length of at least 1, the walk succeeds and returns
exactly `length` tokens, the first being the supplied start state, or
the graph's first key when no start is supplied.  (At length 0 the code
still returns one token, and the empty graph fails with no start.) -/
theorem markov_length_and_start (trans : Graph) (len : Int)
    (start : Option String) (seed : Option Int) (g0 : Nat)
    (hne : trans ≠ []) (hpos : ∀ p ∈ trans, 0 < (p.2.map Prod.snd).sum)
    (hlen : 1 ≤ len) :
    ∃ seq gEnd, markov_generate trans len start seed g0 = some (seq, gEnd)
      ∧ seq.length = len.toNat
      ∧ seq.head? = (match start with
          | some s => some s
          | none => (trans.map Prod.fst).head?) := by
  obtain ⟨probs, hnorm, hkeys, hrows⟩ := normalizeAll_total trans hpos
  have hpne : probs ≠ [] := by
    intro hp0
    rw [hp0] at hkeys
    cases trans with
    | nil => exact hne rfl
    | cons a b => simp at hkeys
  cases start with
  | some st =>
    obtain ⟨tl, gEnd, hw, hl⟩ := walkSteps_ok probs hpne hrows
      (len - 1).toNat st (match seed with
        | some s => seedState s
        | none => g0)
    refine ⟨st :: tl, gEnd, ?_, ?_, rfl⟩
    · simp only [markov_generate, hnorm, hw]
    · simp only [List.length_cons, hl]
      omega
  | none =>
    obtain ⟨q, rest, hq⟩ : ∃ q rest, probs = q :: rest := by
      cases probs with
      | nil => exact absurd rfl hpne
      | cons q rest => exact ⟨q, rest, rfl⟩
    obtain ⟨tl, gEnd, hw, hl⟩ := walkSteps_ok probs hpne hrows
      (len - 1).toNat q.1 (match seed with
        | some s => seedState s
        | none => g0)
    have hh : (probs.map Prod.fst).head? = some q.1 := by rw [hq]; rfl
    refine ⟨q.1 :: tl, gEnd, ?_, ?_, ?_⟩
    · simp only [markov_generate, hnorm, hh, hw]
    · simp only [List.length_cons, hl]
      omega
    · show some q.1 = (trans.map Prod.fst).head?
      rw [← hkeys, hq]
      rfl

theorem markov_length_and_start_witness :
    ∃ seq gEnd,
      markov_generate [("I", [("V", (1 : ℚ)), ("vi", 1)]),
          ("V", [("I", (1 : ℚ))]), ("vi", [("I", (1 : ℚ))])]
          4 none (some 7) 0
        = some (seq, gEnd)
      ∧ seq.length = (4 : Int).toNat
      ∧ seq.head? = some "I" :=
  markov_length_and_start
    [("I", [("V", (1 : ℚ)), ("vi", 1)]), ("V", [("I", (1 : ℚ))]),
      ("vi", [("I", (1 : ℚ))])] 4 none (some 7) 0
    (List.cons_ne_nil _ _)
    (by
      intro p hp
      simp only [List.mem_cons, List.not_mem_nil, or_false] at hp
      rcases hp with h | h | h <;> subst h <;> norm_num)
    (by norm_num)

/-! ## C5: the dead-end reset -/

/-- C5: whenever the current state has no outgoing row — a start state
that is not a key included — the walk does not fail: the state is
silently reset to the graph's first key before sampling, so the walk
succeeds and continues exactly as it would from the first key (only the
recorded first token differs). -/
theorem markov_dead_end_reset (trans : Graph) (len : Int) (start : String)
    (seed : Option Int) (g0 : Nat)
    (hne : trans ≠ []) (hpos : ∀ p ∈ trans, 0 < (p.2.map Prod.snd).sum)
    (hdead : dictGet trans start = none) :
    (∃ seq gEnd,
        markov_generate trans len (some start) seed g0 = some (seq, gEnd))
      ∧ (markov_generate trans len (some start) seed g0).map Prod.fst
          = (markov_generate trans len
              (some ((trans.map Prod.fst).headI)) seed g0).map
              (fun r => start :: r.1.tail)
      ∧ (∀ (probs : Graph) (cur : String) (n g : Nat),
          normalizeAll trans = some probs → dictGet probs cur = none →
          walkSteps probs (probs.map Prod.fst) (n + 1) cur g
            = walkSteps probs (probs.map Prod.fst) (n + 1)
                ((probs.map Prod.fst).headI) g) := by
  obtain ⟨probs, hnorm, hkeys, hrows⟩ := normalizeAll_total trans hpos
  obtain ⟨q, rest, hq⟩ : ∃ q rest, probs = q :: rest := by
    cases hp : probs with
    | nil =>
      rw [hp] at hkeys
      cases trans with
      | nil => exact absurd rfl hne
      | cons a b => simp at hkeys
    | cons q rest => exact ⟨q, rest, rfl⟩
  have hpne : probs ≠ [] := by rw [hq]; simp
  have hdead2 : dictGet probs start = none := by
    rw [dictGet_none_iff] at hdead ⊢
    rw [hkeys]
    exact hdead
  have hheadI : (probs.map Prod.fst).headI = q.1 := by rw [hq]; rfl
  have hheadI2 : (trans.map Prod.fst).headI = q.1 := by rw [← hkeys, hq]; rfl
  have hq2ne : q.2 ≠ [] := hrows q (by rw [hq]; simp)
  have hq2emp : q.2.isEmpty = false := by
    cases hc : q.2 with
    | nil => exact absurd hc hq2ne
    | cons a b => rfl
  have hgetq : dictGet probs q.1 = some q.2 := by
    rw [hq]
    exact dictGet_head q rest
  have hheadOpt : (probs.map Prod.fst).head? = some q.1 := by rw [hq]; rfl
  have hrow_dead : ∀ cur, dictGet probs cur = none →
      rowOf probs (probs.map Prod.fst) cur = some q.2 := by
    intro cur hc
    simp only [rowOf, hc, hheadOpt]
    exact hgetq
  have hrow_head : rowOf probs (probs.map Prod.fst) q.1 = some q.2 := by
    simp only [rowOf, hgetq, hq2emp, Bool.false_eq_true, if_false]
  have hstep : ∀ (n g : Nat) (cur : String), dictGet probs cur = none →
      walkSteps probs (probs.map Prod.fst) n cur g
        = walkSteps probs (probs.map Prod.fst) n q.1 g := by
    intro n g cur hc
    cases n with
    | zero => rfl
    | succ m =>
      rw [walkSteps_succ, walkSteps_succ, hrow_dead cur hc, hrow_head]
  refine ⟨?_, ?_, ?_⟩
  · obtain ⟨tl, gEnd, hw, _⟩ := walkSteps_ok probs hpne hrows
      (len - 1).toNat start (match seed with
        | some s => seedState s
        | none => g0)
    refine ⟨start :: tl, gEnd, ?_⟩
    simp only [markov_generate, hnorm, hw]
  · simp only [markov_generate, hnorm, hheadI2]
    rw [hstep (len - 1).toNat _ start hdead2]
    obtain ⟨tl, gEnd, hw, _⟩ := walkSteps_ok probs hpne hrows
      (len - 1).toNat q.1 (match seed with
        | some s => seedState s
        | none => g0)
    simp only [hw]
    rfl
  · intro probs2 cur n g hnorm2 hc
    have hpp : probs2 = probs := by
      rw [hnorm] at hnorm2
      exact (Option.some_inj.mp hnorm2).symm
    subst hpp
    rw [hheadI]
    exact hstep (n + 1) g cur hc

theorem markov_dead_end_reset_witness :
    (∃ seq gEnd,
        markov_generate [("I", [("V", (1 : ℚ))]), ("V", [("I", (1 : ℚ))])]
          3 (some "ii") (some 5) 0 = some (seq, gEnd))
      ∧ (markov_generate [("I", [("V", (1 : ℚ))]), ("V", [("I", (1 : ℚ))])]
            3 (some "ii") (some 5) 0).map Prod.fst
          = (markov_generate [("I", [("V", (1 : ℚ))]), ("V", [("I", (1 : ℚ))])]
              3 (some "I") (some 5) 0).map (fun r => "ii" :: r.1.tail)
      ∧ (∀ (probs : Graph) (cur : String) (n g : Nat),
          normalizeAll [("I", [("V", (1 : ℚ))]), ("V", [("I", (1 : ℚ))])]
              = some probs →
          dictGet probs cur = none →
          walkSteps probs (probs.map Prod.fst) (n + 1) cur g
            = walkSteps probs (probs.map Prod.fst) (n + 1)
                ((probs.map Prod.fst).headI) g) := by
  have h := markov_dead_end_reset
    [("I", [("V", (1 : ℚ))]), ("V", [("I", (1 : ℚ))])] 3 "ii" (some 5) 0
    (List.cons_ne_nil _ _)
    (by
      intro p hp
      simp only [List.mem_cons, List.not_mem_nil, or_false] at hp
      rcases hp with h | h <;> subst h <;> norm_num)
    (by rfl)
  exact h

/-! ## C8: the generator is global state, reset by an explicit seed -/

lemma choicePick_two_pos {t1 t2 : String} {w1 w2 u : ℚ} (h : u < w1) :
    choicePick [(t1, w1), (t2, w2)] u = some t1 := by
  rw [show choicePick [(t1, w1), (t2, w2)] u
      = if u < w1 then some t1 else choicePick [(t2, w2)] (u - w1)
    from rfl, if_pos h]

lemma choicePick_two_neg {t1 t2 : String} {w1 w2 u : ℚ} (h : ¬ u < w1) :
    choicePick [(t1, w1), (t2, w2)] u = some t2 := by
  rw [show choicePick [(t1, w1), (t2, w2)] u
      = if u < w1 then some t1 else choicePick [(t2, w2)] (u - w1)
    from rfl, if_neg h]
  rfl

lemma markov_two_step (g0 : Nat) :
    markov_generate [("I", [("V", (1 : ℚ)), ("vi", 1)])] 2 (some "I")
        none g0
      = (choicePick [("V", (1 : ℚ) / 2), ("vi", 1 / 2)]
          ((rngStep g0 : ℚ) / (2 : ℚ) ^ 31)).map
          fun nxt => (["I", nxt], rngStep g0) := by
  have hnorm : normalizeAll [("I", [("V", (1 : ℚ)), ("vi", 1)])]
      = some [("I", [("V", 1 / 2), ("vi", 1 / 2)])] := by
    norm_num [normalizeAll, normalize_row]
  have hrow : rowOf [("I", [("V", (1 : ℚ) / 2), ("vi", 1 / 2)])] ["I"] "I"
      = some [("V", (1 : ℚ) / 2), ("vi", 1 / 2)] := rfl
  simp only [markov_generate, hnorm]
  rw [show ((2 : Int) - 1).toNat = 1 from rfl]
  rw [show List.map Prod.fst [("I", [("V", (1 : ℚ) / 2), ("vi", 1 / 2)])]
      = ["I"] from rfl]
  rw [walkSteps_succ]
  simp only [hrow]
  cases hc : choicePick [("V", (1 : ℚ) / 2), ("vi", 1 / 2)]
      ((rngStep g0 : ℚ) / (2 : ℚ) ^ 31) with
  | none => simp only [hc]; rfl
  | some nxt => simp only [hc]; rfl

/-- C8 counterexample: with no seed, the walk reads the ambient global
generator state, so the same call made in two different ambient states
returns different sequences; and the call leaves the global state changed
(12345 after starting from 0), so an invocation is not side-effect-free
and its output is not a function of its arguments alone. -/
theorem markov_global_rng_counterexample :
    ((markov_generate [("I", [("V", (1 : ℚ)), ("vi", 1)])] 2 (some "I")
        none 0).map Prod.fst = some ["I", "V"])
      ∧ ((markov_generate [("I", [("V", (1 : ℚ)), ("vi", 1)])] 2 (some "I")
          none 1).map Prod.fst = some ["I", "vi"])
      ∧ ((markov_generate [("I", [("V", (1 : ℚ)), ("vi", 1)])] 2 (some "I")
          none 0).map Prod.snd = some 12345)
      ∧ ((12345 : Nat) ≠ 0) := by
  have h0 := markov_two_step 0
  have h1 := markov_two_step 1
  rw [show rngStep 0 = 12345 from rfl] at h0
  rw [show rngStep 1 = 1103527590 from rfl] at h1
  rw [choicePick_two_pos (by norm_num)] at h0
  rw [choicePick_two_neg (by norm_num)] at h1
  rw [h0, h1]
  refine ⟨rfl, rfl, rfl, by norm_num⟩

/-- C8 (amended): the walk samples the one module-global generator.
Seeding overwrites that shared state, so with an explicit seed the whole
result — final generator state included — is independent of the ambient
state; but without a seed two ambient states can give different
sequences, and a call can return a changed global state: invocations are
not side-effect-free and share the generator. -/
theorem markov_global_rng :
    (∀ (trans : Graph) (len : Int) (start : Option String) (s : Int)
        (g1 g2 : Nat),
        markov_generate trans len start (some s) g1
          = markov_generate trans len start (some s) g2)
      ∧ (∃ g1 g2 : Nat,
          (markov_generate [("I", [("V", (1 : ℚ)), ("vi", 1)])] 2
              (some "I") none g1).map Prod.fst
            ≠ (markov_generate [("I", [("V", (1 : ℚ)), ("vi", 1)])] 2
                (some "I") none g2).map Prod.fst)
      ∧ (∃ (trans : Graph) (len : Int) (start : Option String)
          (g0 : Nat) (res : List String × Nat),
          markov_generate trans len start none g0 = some res
            ∧ res.2 ≠ g0) := by
  refine ⟨fun trans len start s g1 g2 => rfl, ⟨0, 1, ?_⟩, ?_⟩
  · have h0 := markov_two_step 0
    have h1 := markov_two_step 1
    rw [show rngStep 0 = 12345 from rfl] at h0
    rw [show rngStep 1 = 1103527590 from rfl] at h1
    rw [choicePick_two_pos (by norm_num)] at h0
    rw [choicePick_two_neg (by norm_num)] at h1
    rw [h0, h1]
    simp
  · refine ⟨[("I", [("V", (1 : ℚ)), ("vi", 1)])], 2, some "I", 0,
      (["I", "V"], 12345), ?_, by norm_num⟩
    have h0 := markov_two_step 0
    rw [show rngStep 0 = 12345 from rfl] at h0
    rw [choicePick_two_pos (by norm_num)] at h0
    exact h0

/-! ## C10: duplicate clauses in the inline Markov text -/

lemma find?_append {α : Type} (p : α → Bool) :
    ∀ l1 l2 : List α, List.find? p (l1 ++ l2)
      = match List.find? p l1 with
        | some x => some x
        | none => List.find? p l2 := by
  intro l1 l2
  induction l1 with
  | nil => rfl
  | cons x xs ih =>
    cases hx : p x with
    | true => simp [List.find?, hx]
    | false => simp [List.find?, hx, ih]

lemma parseClauses_fold : ∀ (cs : List (List Char))
    (es : List (String × Row)) (g0 : Graph),
    parseClauses cs = some es →
    parseMarkovAux cs g0
      = some (es.foldl (fun g e => dictSet g e.1 e.2) g0) := by
  intro cs
  induction cs with
  | nil =>
    intro es g0 h
    simp only [parseClauses, Option.some_inj] at h
    rw [← h]
    rfl
  | cons c rest ih =>
    intro es g0 h
    cases hc : parseClause c with
    | none =>
      simp only [parseClauses, hc] at h
      exact absurd h (by simp)
    | some e =>
      cases hr : parseClauses rest with
      | none =>
        simp only [parseClauses, hc, hr] at h
        exact absurd h (by simp)
      | some es2 =>
        simp only [parseClauses, hc, hr, Option.some_inj] at h
        rw [← h]
        simp only [parseMarkovAux, hc]
        rw [ih es2 (dictSet g0 e.1 e.2) hr]
        rfl

lemma dictGet_foldl : ∀ (es : List (String × Row)) (g0 : Graph)
    (st : String),
    dictGet (es.foldl (fun g e => dictSet g e.1 e.2) g0) st
      = match es.reverse.find? (fun e => e.1 == st) with
        | some e => some e.2
        | none => dictGet g0 st := by
  intro es
  induction es with
  | nil => intro g0 st; rfl
  | cons e rest ih =>
    intro g0 st
    rw [List.foldl_cons, ih (dictSet g0 e.1 e.2) st]
    rw [show (e :: rest).reverse = rest.reverse ++ [e] by
      simp [List.reverse_cons]]
    rw [find?_append]
    cases hf : rest.reverse.find? (fun q => q.1 == st) with
    | some x => rfl
    | none =>
      simp only
      rw [dictGet_dictSet]
      cases hex : (e.1 == st) with
      | true =>
        have : st = e.1 := by
          have := (beq_iff_eq).mp hex
          exact this.symm
        rw [if_pos this]
        simp [List.find?, hex]
      | false =>
        have : ¬ st = e.1 := by
          intro hh
          rw [hh] at hex
          simp at hex
        rw [if_neg this]
        simp [List.find?, hex]

/-- C10: duplicate clauses for one state do not make the inline parser
fail — every clause is parsed, each assignment `graph[state] = row`
overwrites in place, and the resulting graph maps each state to the row
of the last clause naming it (the first clause fixes its position, the
last fixes its value). -/
theorem markov_inline_last_wins (spec : String)
    (es : List (String × Row)) (st : String)
    (h : parseClauses (clausesOf spec) = some es) :
    parse_markov_inline spec
        = some (es.foldl (fun g e => dictSet g e.1 e.2) [])
      ∧ dictGet (es.foldl (fun g e => dictSet g e.1 e.2) []) st
          = (es.reverse.find? (fun e => e.1 == st)).map Prod.snd := by
  constructor
  · show parseMarkovAux (clausesOf spec) [] = _
    exact parseClauses_fold _ es [] h
  · rw [dictGet_foldl]
    cases hf : es.reverse.find? (fun e => e.1 == st) with
    | some x => rfl
    | none => rfl

theorem markov_inline_last_wins_witness :
    parse_markov_inline "I:V=1; I:vi=1"
        = some [("I", [("vi", ((1 : Nat) : ℚ))])]
      ∧ dictGet [("I", [("vi", ((1 : Nat) : ℚ))])] "I"
          = some [("vi", ((1 : Nat) : ℚ))] :=
  markov_inline_last_wins "I:V=1; I:vi=1"
    [("I", [("V", ((1 : Nat) : ℚ))]), ("I", [("vi", ((1 : Nat) : ℚ))])]
    "I" rfl
